import Mathlib

/-!
Shallow embedding of `src/binary_search_tree.rs`: an unbalanced binary
search tree over a totally ordered element type, with membership search,
insertion, min/max retrieval and a stack-based in-order iterator.

The Rust struct
`BinarySearchTree<T> { data: Option<T>, left/right: Option<Box<BinarySearchTree<T>>> }`
is embedded as a recursive structure; `&mut self` methods become functions
returning the updated tree, `&self` methods become pure functions.
`T: Ord` becomes `[LinearOrder α]`.  The iterator's possible panics
(`Vec::last().unwrap()` on an empty stack) are modelled by `Option`-valued
results, `none` standing for the panic.
-/

structure BinarySearchTree (α : Type) where
  data : Option α
  left : Option (BinarySearchTree α)
  right : Option (BinarySearchTree α)

namespace BinarySearchTree

variable {α : Type}

/-- `BinarySearchTree::new`: the empty tree, all fields `None`. -/
def new : BinarySearchTree α :=
  { data := none, left := none, right := none }

/-- `BinarySearchTree::search`: compare against the stored element and
recurse left/right; `false` at a data-less node or a missing child. -/
def search [LinearOrder α] : BinarySearchTree α → α → Bool
  | ⟨none, _, _⟩, _ => false
  | ⟨some stored, l, r⟩, x =>
    match compare x stored with
    | .eq => true
    | .lt =>
      match l with
      | some node => search node x
      | none => false
    | .gt =>
      match r with
      | some node => search node x
      | none => false

/-- Number of populated (`Some`) data slots in the tree; termination
measure for `insert` (whose recursive call on `Self::new()` in the
missing-child branch is not structurally decreasing). -/
def elemCount : BinarySearchTree α → Nat
  | ⟨d, l, r⟩ =>
    (if d.isSome then 1 else 0) +
      (match l with
       | some u => elemCount u
       | none => 0) +
      (match r with
       | some u => elemCount u
       | none => 0)

/-- `elemCount` of a `Option<Box<BinarySearchTree>>` slot. -/
def elemCountO : Option (BinarySearchTree α) → Nat
  | some u => elemCount u
  | none => 0

theorem elemCount_mk (d : Option α) (l r : Option (BinarySearchTree α)) :
    elemCount ⟨d, l, r⟩ = (if d.isSome then 1 else 0) + elemCountO l + elemCountO r := by
  cases l <;> cases r <;> simp [elemCount, elemCountO]

/-- `BinarySearchTree::insert`: fill a data-less node in place; otherwise
pick the left child iff `x < stored` (else right), recursing into an
existing child or attaching `Self::new()` with `x` inserted into it. -/
def insert [LinearOrder α] : BinarySearchTree α → α → BinarySearchTree α
  | ⟨none, l, r⟩, x => ⟨some x, l, r⟩
  | ⟨some stored, l, r⟩, x =>
    if x < stored then
      match l with
      | some node => ⟨some stored, some (insert node x), r⟩
      | none => ⟨some stored, some (insert new x), r⟩
    else
      match r with
      | some node => ⟨some stored, l, some (insert node x)⟩
      | none => ⟨some stored, l, some (insert new x)⟩
termination_by t _ => elemCount t
decreasing_by
  all_goals simp [elemCount_mk, elemCountO, new]
  all_goals omega

/-- `BinarySearchTree::min`: follow left children to the leftmost node,
return its `data`. -/
def min : BinarySearchTree α → Option α
  | ⟨d, none, _⟩ => d
  | ⟨_, some node, _⟩ => min node

/-- `BinarySearchTree::max`: follow right children to the rightmost node,
return its `data`. -/
def max : BinarySearchTree α → Option α
  | ⟨d, _, none⟩ => d
  | ⟨_, _, some node⟩ => max node

end BinarySearchTree

namespace BinarySearchTreeIterator

variable {α : Type}

/-- Body of the `while let` loop of
`BinarySearchTreeIterator::stack_push_left`: `t` is the current
top-of-stack node, `s` the stack below it; while the top node has a left
child, push that child. -/
def push_left_loop : BinarySearchTree α → List (BinarySearchTree α) → List (BinarySearchTree α)
  | ⟨d, some child, r⟩, s => push_left_loop child (⟨d, some child, r⟩ :: s)
  | ⟨d, none, r⟩, s => ⟨d, none, r⟩ :: s

/-- `BinarySearchTreeIterator::stack_push_left`.  The stack is a list with
its head as the `Vec` top.  `self.stack.last().unwrap()` panics when the
stack is empty: that is the `none` result. -/
def stack_push_left : List (BinarySearchTree α) → Option (List (BinarySearchTree α))
  | [] => none
  | t :: s => some (push_left_loop t s)

/-- `BinarySearchTreeIterator::new`: start from `vec![tree]`, then
`stack_push_left` (which cannot panic here: the stack is non-empty). -/
def new (tree : BinarySearchTree α) : Option (List (BinarySearchTree α)) :=
  stack_push_left [tree]

/-- `BinarySearchTreeIterator::next`: `none` is a panic (never reached);
`some (y, s)` means the call returned `y` (`none` = iterator exhausted,
as the Rust `Option<&T>`) leaving stack `s`.  An empty stack returns
`None`; otherwise pop, push the right child's left spine if present, and
return the popped node's `data`. -/
def next : List (BinarySearchTree α) → Option (Option α × List (BinarySearchTree α))
  | [] => some (none, [])
  | node :: s =>
    match node.right with
    | some r =>
      match stack_push_left (r :: s) with
      | some s2 => some (node.data, s2)
      | none => none
    | none => some (node.data, s)

end BinarySearchTreeIterator

namespace BinarySearchTree

variable {α : Type}

/-! ### Specification-side definitions (analysis of the embedded code) -/

/-- In-order flattening of the tree: left subtree, the node's element (if
any), right subtree. -/
def inorder : BinarySearchTree α → List α
  | ⟨d, l, r⟩ =>
    (match l with
     | some u => inorder u
     | none => []) ++ d.toList ++
    (match r with
     | some u => inorder u
     | none => [])

/-- `inorder` of an optional child. -/
def inorderO : Option (BinarySearchTree α) → List α
  | some u => inorder u
  | none => []

/-- Every node of the tree holds an element. -/
def allPopulated : BinarySearchTree α → Bool
  | ⟨d, l, r⟩ =>
    d.isSome &&
      (match l with
       | some u => allPopulated u
       | none => true) &&
      (match r with
       | some u => allPopulated u
       | none => true)

/-- `allPopulated` of an optional child. -/
def allPopulatedO : Option (BinarySearchTree α) → Bool
  | some u => allPopulated u
  | none => true

/-- The BST ordering invariant: at every node holding an element `e`, all
elements stored in the left subtree are `< e` and all elements stored in
the right subtree are `≥ e`. -/
def isBST [LinearOrder α] : BinarySearchTree α → Bool
  | ⟨d, l, r⟩ =>
    (match d with
     | some e =>
       (match l with
        | some u => inorder u
        | none => []).all (fun y => decide (y < e)) &&
         (match r with
          | some u => inorder u
          | none => []).all (fun y => decide (e ≤ y))
     | none => true) &&
      (match l with
       | some u => isBST u
       | none => true) &&
      (match r with
       | some u => isBST u
       | none => true)

/-- `isBST` of an optional child. -/
def isBSTO [LinearOrder α] : Option (BinarySearchTree α) → Bool
  | some u => isBST u
  | none => true

/-- Every data-less node of the tree has no children. -/
def emptyNoChild : BinarySearchTree α → Bool
  | ⟨d, l, r⟩ =>
    (d.isSome || (l.isNone && r.isNone)) &&
      (match l with
       | some u => emptyNoChild u
       | none => true) &&
      (match r with
       | some u => emptyNoChild u
       | none => true)

/-- `emptyNoChild` of an optional child. -/
def emptyNoChildO : Option (BinarySearchTree α) → Bool
  | some u => emptyNoChild u
  | none => true

/-- Number of `BinarySearchTree` node structures in the tree (the empty
root counts as one; each `Box::new` in `insert` adds one). -/
def structCount : BinarySearchTree α → Nat
  | ⟨_, l, r⟩ =>
    1 + (match l with
         | some u => structCount u
         | none => 0) +
      (match r with
       | some u => structCount u
       | none => 0)

/-- `structCount` of an optional child. -/
def structCountO : Option (BinarySearchTree α) → Nat
  | some u => structCount u
  | none => 0

/-- The first tree is preserved inside the second: every node of the
first is still present at the same position in the second, a populated
data slot keeps exactly its element, and existing children are never
detached (new data or children may appear).  This rules out removing,
rebalancing or modifying any existing node. -/
def preservedIn [DecidableEq α] : BinarySearchTree α → BinarySearchTree α → Bool
  | ⟨d, l, r⟩, ⟨d2, l2, r2⟩ =>
    (!d.isSome || decide (d2 = d)) &&
      (match l, l2 with
       | some u, some u2 => preservedIn u u2
       | some _, none => false
       | none, _ => true) &&
      (match r, r2 with
       | some u, some u2 => preservedIn u u2
       | some _, none => false
       | none, _ => true)

/-- `preservedIn` on optional child slots. -/
def preservedInO [DecidableEq α] : Option (BinarySearchTree α) → Option (BinarySearchTree α) → Bool
  | some u, some u2 => preservedIn u u2
  | some _, none => false
  | none, _ => true

/-- The tree obtained from `BinarySearchTree::new()` by inserting the
elements of `xs` in order. -/
def buildList [LinearOrder α] (xs : List α) : BinarySearchTree α :=
  xs.foldl insert new

/-- The child the recursive step of `insert` produces for the chosen
target slot: recurse into an existing child, or run `insert` on a fresh
`Self::new()` node. -/
def childInsert [LinearOrder α] : Option (BinarySearchTree α) → α → BinarySearchTree α
  | some node, x => insert node x
  | none, x => insert new x

/-- The recursive step of `search` on the chosen child slot. -/
def childSearch [LinearOrder α] : Option (BinarySearchTree α) → α → Bool
  | some node, x => search node x
  | none, _ => false

end BinarySearchTree

namespace BinarySearchTreeIterator

variable {α : Type}

open BinarySearchTree

/-- Elements still to be produced from iterator stack `s`: each stacked
node contributes its own element and its right subtree (its left subtree
is already distributed above it on the stack). -/
def stackOut : List (BinarySearchTree α) → List α
  | [] => []
  | u :: s => u.data.toList ++ inorderO u.right ++ stackOut s

/-- `next`, with the (unreachable) panic collapsed to `(none, [])`. -/
def nextTotal (s : List (BinarySearchTree α)) : Option α × List (BinarySearchTree α) :=
  match next s with
  | some p => p
  | none => (none, [])

/-- The stack `BinarySearchTree::iter()` starts from, with the
(unreachable) panic of `BinarySearchTreeIterator::new` collapsed to `[]`. -/
def iterStart (t : BinarySearchTree α) : List (BinarySearchTree α) :=
  match new t with
  | some s => s
  | none => []

/-- Iterator stack after `k` calls to `next` on `tree.iter()`. -/
def stackAfter (t : BinarySearchTree α) : Nat → List (BinarySearchTree α)
  | 0 => iterStart t
  | k + 1 => (nextTotal (stackAfter t k)).2

/-- Value returned by the `(k+1)`-st call to `next` on `tree.iter()`. -/
def yieldAt (t : BinarySearchTree α) (k : Nat) : Option α :=
  (nextTotal (stackAfter t k)).1

/-- Drive the iterator up to `fuel` steps, collecting the yielded
elements until it signals exhaustion (returns `None`). -/
def runFuel : Nat → List (BinarySearchTree α) → List α
  | 0, _ => []
  | fuel + 1, s =>
    match nextTotal s with
    | (some x, s2) => x :: runFuel fuel s2
    | (none, _) => []

end BinarySearchTreeIterator

namespace BinarySearchTree

variable {α : Type}

/-! ### A small query language for the read-only operations

The Rust query methods take `&self` (no interior mutability), so the tree
they leave behind is the tree they received; running them as state
transformers makes that frame property an explicit theorem. -/

inductive Query (α : Type) where
  | search (e : α)
  | min
  | max
  | iter

inductive QueryResult (α : Type) where
  | found (b : Bool)
  | elem (x : Option α)
  | cursor (s : List (BinarySearchTree α))

/-- Run one read-only operation as a state transformer on the tree. -/
def runQuery [LinearOrder α] (t : BinarySearchTree α) : Query α → QueryResult α × BinarySearchTree α
  | .search e => (.found (t.search e), t)
  | .min => (.elem t.min, t)
  | .max => (.elem t.max, t)
  | .iter => (.cursor (BinarySearchTreeIterator.iterStart t), t)

/-- Run a sequence of read-only operations, threading the tree state. -/
def runQueries [LinearOrder α] (t : BinarySearchTree α) : List (Query α) → List (QueryResult α) × BinarySearchTree α
  | [] => ([], t)
  | q :: qs =>
    let p := runQuery t q
    let rest := runQueries p.2 qs
    (p.1 :: rest.1, rest.2)

end BinarySearchTree

namespace BinarySearchTree

variable {α : Type}

/-! ### Induction principle and unfolding lemmas -/

/-- `P` holds of the tree in an optional child slot, vacuously of `none`. -/
def optHolds (P : BinarySearchTree α → Prop) : Option (BinarySearchTree α) → Prop
  | some u => P u
  | none => True

/-- Structural induction for the nested recursive structure. -/
theorem inductionOn {P : BinarySearchTree α → Prop}
    (h : ∀ d l r, optHolds P l → optHolds P r → P ⟨d, l, r⟩) : ∀ t, P t
  | ⟨d, l, r⟩ =>
    h d l r
      (match l with
       | some u => inductionOn h u
       | none => True.intro)
      (match r with
       | some u => inductionOn h u
       | none => True.intro)

theorem optHolds_some {P : BinarySearchTree α → Prop} {u : BinarySearchTree α}
    (h : optHolds P (some u)) : P u := h

theorem inorder_mk (d : Option α) (l r : Option (BinarySearchTree α)) :
    inorder ⟨d, l, r⟩ = inorderO l ++ d.toList ++ inorderO r := by
  cases l <;> cases r <;> simp [inorder, inorderO]

theorem allPopulated_mk (d : Option α) (l r : Option (BinarySearchTree α)) :
    allPopulated ⟨d, l, r⟩ = (d.isSome && allPopulatedO l && allPopulatedO r) := by
  cases l <;> cases r <;> simp [allPopulated, allPopulatedO]

theorem isBST_mk [LinearOrder α] (d : Option α) (l r : Option (BinarySearchTree α)) :
    isBST ⟨d, l, r⟩ =
      ((match d with
        | some e =>
          (inorderO l).all (fun y => decide (y < e)) &&
            (inorderO r).all (fun y => decide (e ≤ y))
        | none => true) &&
        isBSTO l && isBSTO r) := by
  cases d <;> cases l <;> cases r <;> simp [isBST, isBSTO, inorderO]

theorem emptyNoChild_mk (d : Option α) (l r : Option (BinarySearchTree α)) :
    emptyNoChild ⟨d, l, r⟩ =
      ((d.isSome || (l.isNone && r.isNone)) && emptyNoChildO l && emptyNoChildO r) := by
  cases l <;> cases r <;> simp [emptyNoChild, emptyNoChildO]

theorem structCount_mk (d : Option α) (l r : Option (BinarySearchTree α)) :
    structCount ⟨d, l, r⟩ = 1 + structCountO l + structCountO r := by
  cases l <;> cases r <;> simp [structCount, structCountO]

theorem insert_data_none [LinearOrder α] (l r : Option (BinarySearchTree α)) (x : α) :
    insert ⟨none, l, r⟩ x = ⟨some x, l, r⟩ := by
  simp [insert]

theorem insert_data_some [LinearOrder α] (e x : α) (l r : Option (BinarySearchTree α)) :
    insert ⟨some e, l, r⟩ x =
      if x < e then ⟨some e, some (childInsert l x), r⟩
      else ⟨some e, l, some (childInsert r x)⟩ := by
  cases l <;> cases r <;> by_cases h : x < e <;> simp [insert, childInsert, h]

theorem insert_new [LinearOrder α] (x : α) :
    insert (new : BinarySearchTree α) x = ⟨some x, none, none⟩ := by
  simp [new, insert_data_none]

theorem search_data_none [LinearOrder α] (l r : Option (BinarySearchTree α)) (x : α) :
    search ⟨none, l, r⟩ x = false := by
  simp [search]

theorem search_self [LinearOrder α] (e : α) (l r : Option (BinarySearchTree α)) :
    search ⟨some e, l, r⟩ e = true := by
  have hc : compare e e = Ordering.eq := compare_eq_iff_eq.mpr rfl
  cases l <;> cases r <;> simp [search, hc]

theorem search_lt [LinearOrder α] {e x : α} (hx : x < e) (l r : Option (BinarySearchTree α)) :
    search ⟨some e, l, r⟩ x = childSearch l x := by
  have hc : compare x e = Ordering.lt := compare_lt_iff_lt.mpr hx
  cases l <;> cases r <;> simp [search, childSearch, hc]

theorem search_gt [LinearOrder α] {e x : α} (hx : e < x) (l r : Option (BinarySearchTree α)) :
    search ⟨some e, l, r⟩ x = childSearch r x := by
  have hc : compare x e = Ordering.gt := compare_gt_iff_gt.mpr hx
  cases l <;> cases r <;> simp [search, childSearch, hc]

theorem min_left_none (d : Option α) (r : Option (BinarySearchTree α)) :
    min ⟨d, none, r⟩ = d := by
  simp [min]

theorem min_left_some (d : Option α) (u : BinarySearchTree α) (r : Option (BinarySearchTree α)) :
    min ⟨d, some u, r⟩ = min u := by
  simp [min]

theorem max_right_none (d : Option α) (l : Option (BinarySearchTree α)) :
    max ⟨d, l, none⟩ = d := by
  simp [max]

theorem max_right_some (d : Option α) (l : Option (BinarySearchTree α)) (u : BinarySearchTree α) :
    max ⟨d, l, some u⟩ = max u := by
  simp [max]

end BinarySearchTree

namespace BinarySearchTree


variable {α : Type}

/-! ### Insertion: effect on contents and invariants -/

theorem inorder_new : inorder (new : BinarySearchTree α) = [] := by
  simp [new, inorder_mk, inorderO]

theorem inorder_insert [LinearOrder α] (x : α) :
    ∀ t : BinarySearchTree α, (inorder (insert t x)).Perm (x :: inorder t) := by
  intro t
  induction t using inductionOn with
  | h d l r ihl ihr =>
    cases d with
    | none =>
      rw [insert_data_none, inorder_mk, inorder_mk]
      simp only [Option.toList_some, Option.toList_none, List.append_nil, List.append_assoc,
        List.singleton_append]
      exact List.perm_middle
    | some e =>
      rw [insert_data_some]
      by_cases hx : x < e
      · have hci : (inorder (childInsert l x)).Perm (x :: inorderO l) := by
          cases l with
          | some u => simpa [childInsert, inorderO] using optHolds_some ihl
          | none => simp [childInsert, insert_new, inorder_mk, inorderO]
        rw [if_pos hx]
        have h2 := hci.append_right ((some e).toList ++ inorderO r)
        simpa [inorder_mk, inorderO] using h2
      · have hci : (inorder (childInsert r x)).Perm (x :: inorderO r) := by
          cases r with
          | some u => simpa [childInsert, inorderO] using optHolds_some ihr
          | none => simp [childInsert, insert_new, inorder_mk, inorderO]
        rw [if_neg hx]
        have h2 := (List.Perm.append_left (inorderO l ++ (some e).toList) hci).trans
          List.perm_middle
        simpa [inorder_mk, inorderO] using h2

theorem inorder_foldl [LinearOrder α] :
    ∀ (xs : List α) (t : BinarySearchTree α),
      (inorder (List.foldl insert t xs)).Perm (xs ++ inorder t) := by
  intro xs
  induction xs with
  | nil => intro t; simp
  | cons x xs ih =>
    intro t
    have h1 := ih (insert t x)
    have h2 := List.Perm.append_left xs (inorder_insert x t)
    have h3 := h1.trans (h2.trans List.perm_middle)
    simpa using h3

theorem inorder_buildList [LinearOrder α] (xs : List α) :
    (inorder (buildList xs)).Perm xs := by
  simpa [buildList, inorder_new] using inorder_foldl xs new

theorem insert_data_isSome [LinearOrder α] (t : BinarySearchTree α) (x : α) :
    ((insert t x).data).isSome = true := by
  obtain ⟨d, l, r⟩ := t
  cases d with
  | none => rw [insert_data_none]; rfl
  | some e =>
    rw [insert_data_some]
    by_cases hx : x < e <;> simp [hx]

theorem allPopulated_node_iff (d : Option α) (l r : Option (BinarySearchTree α)) :
    allPopulated ⟨d, l, r⟩ = true ↔
      d.isSome = true ∧ allPopulatedO l = true ∧ allPopulatedO r = true := by
  rw [allPopulated_mk]; simp [and_assoc]

theorem allPopulated_insert [LinearOrder α] (x : α) :
    ∀ t : BinarySearchTree α, allPopulated t = true → allPopulated (insert t x) = true := by
  intro t
  induction t using inductionOn with
  | h d l r ihl ihr =>
    intro hp
    rcases (allPopulated_node_iff d l r).mp hp with ⟨hd, hl, hr⟩
    cases d with
    | none => simp at hd
    | some e =>
      rw [insert_data_some]
      by_cases hx : x < e
      · rw [if_pos hx]
        refine (allPopulated_node_iff _ _ _).mpr ⟨rfl, ?_, hr⟩
        cases l with
        | some u => exact optHolds_some ihl (by simpa [allPopulatedO] using hl)
        | none => simp [childInsert, insert_new, allPopulated_mk, allPopulatedO]
      · rw [if_neg hx]
        refine (allPopulated_node_iff _ _ _).mpr ⟨rfl, hl, ?_⟩
        cases r with
        | some u => exact optHolds_some ihr (by simpa [allPopulatedO] using hr)
        | none => simp [childInsert, insert_new, allPopulated_mk, allPopulatedO]

theorem allPopulated_insert_new [LinearOrder α] (x : α) :
    allPopulated (insert (new : BinarySearchTree α) x) = true := by
  simp [insert_new, allPopulated_mk, allPopulatedO]

end BinarySearchTree

namespace BinarySearchTree

variable {α : Type}

theorem inorder_childInsert [LinearOrder α] (c : Option (BinarySearchTree α)) (x : α) :
    (inorder (childInsert c x)).Perm (x :: inorderO c) := by
  cases c with
  | some u => simpa [childInsert, inorderO] using inorder_insert x u
  | none => simp [childInsert, insert_new, inorder_mk, inorderO]

theorem isBST_node_iff [LinearOrder α] (e : α) (l r : Option (BinarySearchTree α)) :
    isBST ⟨some e, l, r⟩ = true ↔
      (∀ y ∈ inorderO l, y < e) ∧ (∀ y ∈ inorderO r, e ≤ y) ∧
        isBSTO l = true ∧ isBSTO r = true := by
  rw [isBST_mk]
  simp [List.all_eq_true, and_assoc]

theorem isBST_data_none [LinearOrder α] (l r : Option (BinarySearchTree α)) :
    isBST ⟨none, l, r⟩ = (isBSTO l && isBSTO r) := by
  rw [isBST_mk]
  simp

theorem isBST_new [LinearOrder α] : isBST (new : BinarySearchTree α) = true := by
  simp [new, isBST_data_none, isBSTO]

theorem isBST_insert_new [LinearOrder α] (x : α) :
    isBST (insert (new : BinarySearchTree α) x) = true := by
  rw [insert_new]
  exact (isBST_node_iff x none none).mpr (by simp [inorderO, isBSTO])

theorem isBST_insert [LinearOrder α] (x : α) :
    ∀ t : BinarySearchTree α, allPopulated t = true → isBST t = true →
      isBST (insert t x) = true := by
  intro t
  induction t using inductionOn with
  | h d l r ihl ihr =>
    intro hp hb
    rcases (allPopulated_node_iff d l r).mp hp with ⟨hd, hpl, hpr⟩
    cases d with
    | none => simp at hd
    | some e =>
      rcases (isBST_node_iff e l r).mp hb with ⟨hbl, hbr, hsl, hsr⟩
      rw [insert_data_some]
      by_cases hx : x < e
      · rw [if_pos hx]
        refine (isBST_node_iff e _ r).mpr ⟨?_, hbr, ?_, hsr⟩
        · intro y hy
          have hy2 := (inorder_childInsert l x).mem_iff.mp (by simpa [inorderO] using hy)
          rcases List.mem_cons.mp hy2 with hy3 | hy3
          · exact hy3 ▸ hx
          · exact hbl y hy3
        · show isBST (childInsert l x) = true
          cases l with
          | some u =>
            exact optHolds_some ihl (by simpa [allPopulatedO] using hpl)
              (by simpa [isBSTO] using hsl)
          | none => simpa [childInsert] using isBST_insert_new x
      · rw [if_neg hx]
        have hex : e ≤ x := not_lt.mp hx
        refine (isBST_node_iff e l _).mpr ⟨hbl, ?_, hsl, ?_⟩
        · intro y hy
          have hy2 := (inorder_childInsert r x).mem_iff.mp (by simpa [inorderO] using hy)
          rcases List.mem_cons.mp hy2 with hy3 | hy3
          · exact hy3 ▸ hex
          · exact hbr y hy3
        · show isBST (childInsert r x) = true
          cases r with
          | some u =>
            exact optHolds_some ihr (by simpa [allPopulatedO] using hpr)
              (by simpa [isBSTO] using hsr)
          | none => simpa [childInsert] using isBST_insert_new x

theorem structCount_insert [LinearOrder α] (x : α) :
    ∀ t : BinarySearchTree α, allPopulated t = true →
      structCount (insert t x) = structCount t + 1 := by
  intro t
  induction t using inductionOn with
  | h d l r ihl ihr =>
    intro hp
    rcases (allPopulated_node_iff d l r).mp hp with ⟨hd, hpl, hpr⟩
    cases d with
    | none => simp at hd
    | some e =>
      rw [insert_data_some]
      by_cases hx : x < e
      · rw [if_pos hx]
        have hci : structCount (childInsert l x) = structCountO l + 1 := by
          cases l with
          | some u =>
            simpa [childInsert, structCountO] using
              optHolds_some ihl (by simpa [allPopulatedO] using hpl)
          | none => simp [childInsert, insert_new, structCount_mk, structCountO]
        rw [structCount_mk, structCount_mk]
        simp only [structCountO] at hci ⊢
        omega
      · rw [if_neg hx]
        have hci : structCount (childInsert r x) = structCountO r + 1 := by
          cases r with
          | some u =>
            simpa [childInsert, structCountO] using
              optHolds_some ihr (by simpa [allPopulatedO] using hpr)
          | none => simp [childInsert, insert_new, structCount_mk, structCountO]
        rw [structCount_mk, structCount_mk]
        simp only [structCountO] at hci ⊢
        omega

theorem structCount_insert_new [LinearOrder α] (x : α) :
    structCount (insert (new : BinarySearchTree α) x) = structCount (new : BinarySearchTree α) := by
  rw [insert_new]
  simp [new, structCount_mk, structCountO]

theorem emptyNoChild_new : emptyNoChild (new : BinarySearchTree α) = true := by
  simp [new, emptyNoChild_mk, emptyNoChildO]

theorem allPopulated_emptyNoChild :
    ∀ t : BinarySearchTree α, allPopulated t = true → emptyNoChild t = true := by
  intro t
  induction t using inductionOn with
  | h d l r ihl ihr =>
    intro hp
    rcases (allPopulated_node_iff d l r).mp hp with ⟨hd, hpl, hpr⟩
    rw [emptyNoChild_mk]
    have h1 : emptyNoChildO l = true := by
      cases l with
      | some u => exact optHolds_some ihl (by simpa [allPopulatedO] using hpl)
      | none => rfl
    have h2 : emptyNoChildO r = true := by
      cases r with
      | some u => exact optHolds_some ihr (by simpa [allPopulatedO] using hpr)
      | none => rfl
    simp [hd, h1, h2]

end BinarySearchTree

namespace BinarySearchTree

variable {α : Type}

/-! ### Invariants of trees built by insertion sequences -/

theorem foldl_inv [LinearOrder α] :
    ∀ (xs : List α) (t : BinarySearchTree α),
      isBST t = true → (t = new ∨ allPopulated t = true) →
      isBST (List.foldl insert t xs) = true ∧
        (List.foldl insert t xs = new ∨ allPopulated (List.foldl insert t xs) = true) := by
  intro xs
  induction xs with
  | nil => intro t hb hp; exact ⟨hb, hp⟩
  | cons x xs ih =>
    intro t hb hp
    rw [List.foldl_cons]
    rcases hp with hp | hp
    · subst hp
      exact ih _ (isBST_insert_new x) (Or.inr (allPopulated_insert_new x))
    · exact ih _ (isBST_insert x t hp hb) (Or.inr (allPopulated_insert x t hp))

theorem buildList_inv [LinearOrder α] (xs : List α) :
    isBST (buildList xs) = true ∧
      (buildList xs = new ∨ allPopulated (buildList xs) = true) := by
  simpa [buildList] using foldl_inv xs new isBST_new (Or.inl rfl)

theorem foldl_data_isSome [LinearOrder α] :
    ∀ (xs : List α) (t : BinarySearchTree α),
      (t.data).isSome = true → ((List.foldl insert t xs).data).isSome = true := by
  intro xs
  induction xs with
  | nil => intro t h; exact h
  | cons x xs ih =>
    intro t h
    rw [List.foldl_cons]
    exact ih _ (insert_data_isSome t x)

theorem buildList_allPopulated [LinearOrder α] (xs : List α) (h : xs ≠ []) :
    allPopulated (buildList xs) = true := by
  rcases (buildList_inv xs).2 with hnew | hp
  · exfalso
    cases xs with
    | nil => exact h rfl
    | cons x xs =>
      have hd : ((buildList (x :: xs)).data).isSome = true := by
        rw [buildList, List.foldl_cons]
        exact foldl_data_isSome xs _ (insert_data_isSome new x)
      rw [hnew] at hd
      simp [new] at hd
  · exact hp

/-! ### Sortedness of the in-order flattening -/

theorem inorder_sorted [LinearOrder α] :
    ∀ t : BinarySearchTree α, allPopulated t = true → isBST t = true →
      List.Sorted (fun a b => a ≤ b) (inorder t) := by
  intro t
  induction t using inductionOn with
  | h d l r ihl ihr =>
    intro hp hb
    rcases (allPopulated_node_iff d l r).mp hp with ⟨hd, hpl, hpr⟩
    cases d with
    | none => simp at hd
    | some e =>
      rcases (isBST_node_iff e l r).mp hb with ⟨hbl, hbr, hsl, hsr⟩
      have Hl : List.Sorted (fun a b => a ≤ b) (inorderO l) := by
        cases l with
        | some u =>
          exact optHolds_some ihl (by simpa [allPopulatedO] using hpl)
            (by simpa [isBSTO] using hsl)
        | none => simp [inorderO]
      have Hr : List.Sorted (fun a b => a ≤ b) (inorderO r) := by
        cases r with
        | some u =>
          exact optHolds_some ihr (by simpa [allPopulatedO] using hpr)
            (by simpa [isBSTO] using hsr)
        | none => simp [inorderO]
      rw [inorder_mk]
      have Hcons : List.Sorted (fun a b => a ≤ b) (e :: inorderO r) :=
        List.sorted_cons.mpr ⟨hbr, Hr⟩
      have : List.Sorted (fun a b => a ≤ b) (inorderO l ++ e :: inorderO r) := by
        rw [List.Sorted, List.pairwise_append]
        refine ⟨Hl, Hcons, ?_⟩
        intro a ha b hb2
        rcases List.mem_cons.mp hb2 with hb3 | hb3
        · exact hb3 ▸ le_of_lt (hbl a ha)
        · exact le_of_lt (lt_of_lt_of_le (hbl a ha) (hbr b hb3))
      simpa using this

/-! ### Search correctness -/

theorem search_spec [LinearOrder α] :
    ∀ t : BinarySearchTree α, allPopulated t = true → isBST t = true →
      ∀ x : α, (search t x = true ↔ x ∈ inorder t) := by
  intro t
  induction t using inductionOn with
  | h d l r ihl ihr =>
    intro hp hb x
    rcases (allPopulated_node_iff d l r).mp hp with ⟨hd, hpl, hpr⟩
    cases d with
    | none => simp at hd
    | some e =>
      rcases (isBST_node_iff e l r).mp hb with ⟨hbl, hbr, hsl, hsr⟩
      rw [inorder_mk]
      rcases lt_trichotomy x e with hx | hx | hx
      · rw [search_lt hx]
        have hnotmid : x ≠ e := ne_of_lt hx
        have hnotr : x ∉ inorderO r := fun hmem => absurd (hbr x hmem) (not_le.mpr hx)
        have hiff : (childSearch l x = true ↔ x ∈ inorderO l) := by
          cases l with
          | some u =>
            simpa [childSearch, inorderO] using
              (optHolds_some ihl (by simpa [allPopulatedO] using hpl)
                (by simpa [isBSTO] using hsl) x)
          | none => simp [childSearch, inorderO]
        rw [hiff]
        constructor
        · intro hmem
          exact List.mem_append.mpr (Or.inl (List.mem_append.mpr (Or.inl hmem)))
        · intro hmem
          rcases List.mem_append.mp hmem with h2 | h2
          · rcases List.mem_append.mp h2 with h3 | h3
            · exact h3
            · exact absurd (by simpa using h3) hnotmid
          · exact absurd h2 hnotr
      · subst hx
        rw [search_self]
        simp
      · rw [search_gt hx]
        have hnotmid : x ≠ e := (ne_of_lt hx).symm
        have hnotl : x ∉ inorderO l :=
          fun hmem => absurd (hbl x hmem) (not_lt.mpr (le_of_lt hx))
        have hiff : (childSearch r x = true ↔ x ∈ inorderO r) := by
          cases r with
          | some u =>
            simpa [childSearch, inorderO] using
              (optHolds_some ihr (by simpa [allPopulatedO] using hpr)
                (by simpa [isBSTO] using hsr) x)
          | none => simp [childSearch, inorderO]
        rw [hiff]
        constructor
        · intro hmem
          exact List.mem_append.mpr (Or.inr hmem)
        · intro hmem
          rcases List.mem_append.mp hmem with h2 | h2
          · rcases List.mem_append.mp h2 with h3 | h3
            · exact absurd h3 hnotl
            · exact absurd (by simpa using h3) hnotmid
          · exact h2

theorem search_new [LinearOrder α] (x : α) :
    search (new : BinarySearchTree α) x = false := by
  simp [new, search_data_none]

/-! ### Min/max correctness -/

theorem min_spec [LinearOrder α] :
    ∀ t : BinarySearchTree α, allPopulated t = true → isBST t = true →
      ∃ m, min t = some m ∧ m ∈ inorder t ∧ ∀ y ∈ inorder t, m ≤ y := by
  intro t
  induction t using inductionOn with
  | h d l r ihl ihr =>
    intro hp hb
    rcases (allPopulated_node_iff d l r).mp hp with ⟨hd, hpl, hpr⟩
    cases d with
    | none => simp at hd
    | some e =>
      rcases (isBST_node_iff e l r).mp hb with ⟨hbl, hbr, hsl, hsr⟩
      cases l with
      | none =>
        refine ⟨e, min_left_none (some e) r, ?_, ?_⟩
        · rw [inorder_mk]; simp [inorderO]
        · intro y hy
          rw [inorder_mk] at hy
          simp only [inorderO, Option.toList_some, List.nil_append] at hy
          rcases List.mem_cons.mp hy with hy2 | hy2
          · exact le_of_eq hy2.symm
          · exact hbr y hy2
      | some u =>
        obtain ⟨m, hm1, hm2, hm3⟩ := optHolds_some ihl
          (by simpa [allPopulatedO] using hpl) (by simpa [isBSTO] using hsl)
        have hme : m < e := hbl m (by simpa [inorderO] using hm2)
        refine ⟨m, by rw [min_left_some]; exact hm1, ?_, ?_⟩
        · rw [inorder_mk]
          simp only [inorderO]
          exact List.mem_append.mpr (Or.inl (List.mem_append.mpr (Or.inl hm2)))
        · intro y hy
          rw [inorder_mk] at hy
          rcases List.mem_append.mp hy with hy2 | hy2
          · rcases List.mem_append.mp hy2 with hy3 | hy3
            · exact hm3 y (by simpa [inorderO] using hy3)
            · have : y = e := by simpa using hy3
              exact this ▸ le_of_lt hme
          · exact le_of_lt (lt_of_lt_of_le hme (hbr y hy2))

theorem max_spec [LinearOrder α] :
    ∀ t : BinarySearchTree α, allPopulated t = true → isBST t = true →
      ∃ m, max t = some m ∧ m ∈ inorder t ∧ ∀ y ∈ inorder t, y ≤ m := by
  intro t
  induction t using inductionOn with
  | h d l r ihl ihr =>
    intro hp hb
    rcases (allPopulated_node_iff d l r).mp hp with ⟨hd, hpl, hpr⟩
    cases d with
    | none => simp at hd
    | some e =>
      rcases (isBST_node_iff e l r).mp hb with ⟨hbl, hbr, hsl, hsr⟩
      cases r with
      | none =>
        refine ⟨e, max_right_none (some e) l, ?_, ?_⟩
        · rw [inorder_mk]; simp [inorderO]
        · intro y hy
          rw [inorder_mk] at hy
          simp only [inorderO, Option.toList_some, List.append_nil] at hy
          rcases List.mem_append.mp hy with hy2 | hy2
          · exact le_of_lt (hbl y hy2)
          · have : y = e := by simpa using hy2
            exact le_of_eq this
      | some u =>
        obtain ⟨m, hm1, hm2, hm3⟩ := optHolds_some ihr
          (by simpa [allPopulatedO] using hpr) (by simpa [isBSTO] using hsr)
        have hme : e ≤ m := hbr m (by simpa [inorderO] using hm2)
        refine ⟨m, by rw [max_right_some]; exact hm1, ?_, ?_⟩
        · rw [inorder_mk]
          simp only [inorderO]
          exact List.mem_append.mpr (Or.inr hm2)
        · intro y hy
          rw [inorder_mk] at hy
          rcases List.mem_append.mp hy with hy2 | hy2
          · rcases List.mem_append.mp hy2 with hy3 | hy3
            · exact le_trans (le_of_lt (hbl y hy3)) hme
            · have : y = e := by simpa using hy3
              exact this ▸ hme
          · exact hm3 y (by simpa [inorderO] using hy2)

theorem min_new : min (new : BinarySearchTree α) = none := rfl

theorem max_new : max (new : BinarySearchTree α) = none := rfl

end BinarySearchTree

namespace BinarySearchTreeIterator

variable {α : Type}

open BinarySearchTree

/-! ### Iterator: spine pushing, panic freedom, traversal output -/

theorem push_left_loop_stackOut :
    ∀ t : BinarySearchTree α, ∀ s : List (BinarySearchTree α),
      stackOut (push_left_loop t s) = inorder t ++ stackOut s := by
  intro t
  induction t using inductionOn with
  | h d l r ihl ihr =>
    intro s
    cases l with
    | none => simp [push_left_loop, stackOut, inorder_mk, inorderO]
    | some u =>
      rw [push_left_loop, optHolds_some ihl, stackOut, inorder_mk]
      simp [inorderO]

theorem push_left_loop_populated :
    ∀ t : BinarySearchTree α, allPopulated t = true →
      ∀ s : List (BinarySearchTree α), (∀ u ∈ s, allPopulated u = true) →
        ∀ u ∈ push_left_loop t s, allPopulated u = true := by
  intro t
  induction t using inductionOn with
  | h d l r ihl ihr =>
    intro hp s hs
    cases l with
    | none =>
      rw [push_left_loop]
      intro u hu
      rcases List.mem_cons.mp hu with hu2 | hu2
      · exact hu2 ▸ hp
      · exact hs u hu2
    | some c =>
      rw [push_left_loop]
      have hc : allPopulated c = true := by
        rcases (allPopulated_node_iff d (some c) r).mp hp with ⟨_, hl, _⟩
        simpa [allPopulatedO] using hl
      refine optHolds_some ihl hc (⟨d, some c, r⟩ :: s) ?_
      intro u hu
      rcases List.mem_cons.mp hu with hu2 | hu2
      · exact hu2 ▸ hp
      · exact hs u hu2

theorem next_nil : next ([] : List (BinarySearchTree α)) = some (none, []) := rfl

theorem next_cons_right_none (d : Option α) (l : Option (BinarySearchTree α))
    (s : List (BinarySearchTree α)) :
    next (⟨d, l, none⟩ :: s) = some (d, s) := by
  simp [next]

theorem next_cons_right_some (d : Option α) (l : Option (BinarySearchTree α))
    (rc : BinarySearchTree α) (s : List (BinarySearchTree α)) :
    next (⟨d, l, some rc⟩ :: s) = some (d, push_left_loop rc s) := by
  simp [next, stack_push_left]

/-- `stack_push_left` is never invoked on an empty stack inside `next`,
so `next` never reaches the panicking `unwrap`. -/
theorem next_no_panic (s : List (BinarySearchTree α)) : next s ≠ none := by
  cases s with
  | nil => simp [next_nil]
  | cons node s =>
    obtain ⟨d, l, r⟩ := node
    cases r with
    | none => simp [next_cons_right_none]
    | some rc => simp [next_cons_right_some]

/-- `stack_push_left` is invoked on the singleton stack in
`BinarySearchTreeIterator::new`, so iterator construction never panics. -/
theorem new_no_panic (t : BinarySearchTree α) : new t ≠ none := by
  simp [new, stack_push_left]

theorem new_eq (t : BinarySearchTree α) : new t = some (push_left_loop t []) := by
  simp [new, stack_push_left]

theorem iterStart_eq (t : BinarySearchTree α) : iterStart t = push_left_loop t [] := by
  simp [iterStart, new_eq]

theorem nextTotal_nil : nextTotal ([] : List (BinarySearchTree α)) = (none, []) := rfl

theorem nextTotal_cons_right_none (d : Option α) (l : Option (BinarySearchTree α))
    (s : List (BinarySearchTree α)) :
    nextTotal (⟨d, l, none⟩ :: s) = (d, s) := by
  simp [nextTotal, next_cons_right_none]

theorem nextTotal_cons_right_some (d : Option α) (l : Option (BinarySearchTree α))
    (rc : BinarySearchTree α) (s : List (BinarySearchTree α)) :
    nextTotal (⟨d, l, some rc⟩ :: s) = (d, push_left_loop rc s) := by
  simp [nextTotal, next_cons_right_some]

theorem nextTotal_populated (s : List (BinarySearchTree α))
    (hs : ∀ u ∈ s, allPopulated u = true) :
    ∀ u ∈ (nextTotal s).2, allPopulated u = true := by
  cases s with
  | nil => simp [nextTotal_nil]
  | cons node s2 =>
    obtain ⟨d, l, r⟩ := node
    have hnode : allPopulated ⟨d, l, r⟩ = true := hs _ (List.mem_cons_self _ _)
    have hs2 : ∀ u ∈ s2, allPopulated u = true := fun u hu => hs u (List.mem_cons_of_mem _ hu)
    cases r with
    | none =>
      rw [nextTotal_cons_right_none]
      exact hs2
    | some rc =>
      rw [nextTotal_cons_right_some]
      have hrc : allPopulated rc = true := by
        rcases (allPopulated_node_iff d l (some rc)).mp hnode with ⟨_, _, hr⟩
        simpa [allPopulatedO] using hr
      exact push_left_loop_populated rc hrc s2 hs2

theorem runFuel_eq_stackOut :
    ∀ (fuel : Nat) (s : List (BinarySearchTree α)),
      (∀ u ∈ s, allPopulated u = true) → (stackOut s).length < fuel →
      runFuel fuel s = stackOut s := by
  intro fuel
  induction fuel with
  | zero => intro s _ h; omega
  | succ fuel ih =>
    intro s hs hlen
    cases s with
    | nil => simp [runFuel, nextTotal_nil, stackOut]
    | cons node s2 =>
      obtain ⟨d, l, r⟩ := node
      have hnode : allPopulated ⟨d, l, r⟩ = true := hs _ (List.mem_cons_self _ _)
      have hs2 : ∀ u ∈ s2, allPopulated u = true := fun u hu => hs u (List.mem_cons_of_mem _ hu)
      obtain ⟨e, he⟩ : ∃ e, d = some e := by
        rcases (allPopulated_node_iff d l r).mp hnode with ⟨hd, _, _⟩
        cases d with
        | none => simp at hd
        | some e => exact ⟨e, rfl⟩
      subst he
      cases r with
      | none =>
        rw [runFuel, nextTotal_cons_right_none]
        have hlen2 : (stackOut s2).length < fuel := by
          rw [stackOut] at hlen
          simp [inorderO] at hlen
          omega
        show e :: runFuel fuel s2 = stackOut (⟨some e, l, none⟩ :: s2)
        rw [ih s2 hs2 hlen2, stackOut]
        simp [inorderO]
      | some rc =>
        rw [runFuel, nextTotal_cons_right_some]
        have hrc : allPopulated rc = true := by
          rcases (allPopulated_node_iff (some e) l (some rc)).mp hnode with ⟨_, _, hr⟩
          simpa [allPopulatedO] using hr
        have hsp : ∀ u ∈ push_left_loop rc s2, allPopulated u = true :=
          push_left_loop_populated rc hrc s2 hs2
        have hso : stackOut (push_left_loop rc s2) = inorder rc ++ stackOut s2 :=
          push_left_loop_stackOut rc s2
        have hlen2 : (stackOut (push_left_loop rc s2)).length < fuel := by
          rw [hso]
          rw [stackOut] at hlen
          simp [inorderO] at hlen ⊢
          omega
        show e :: runFuel fuel (push_left_loop rc s2) = stackOut (⟨some e, l, some rc⟩ :: s2)
        rw [ih _ hsp hlen2, hso, stackOut]
        simp [inorderO]

end BinarySearchTreeIterator

namespace BinarySearchTreeIterator

variable {α : Type}

open BinarySearchTree

theorem iterStart_new :
    iterStart (BinarySearchTree.new : BinarySearchTree α) = [BinarySearchTree.new] := by
  rw [iterStart_eq]
  simp [BinarySearchTree.new, push_left_loop]

theorem nextTotal_new :
    nextTotal [(BinarySearchTree.new : BinarySearchTree α)] = (none, []) := by
  simp [BinarySearchTree.new, nextTotal_cons_right_none]

/-- Every stack reachable from `tree.iter()` on a built tree consists of
populated nodes, except the initial singleton stack of the empty tree. -/
theorem stackAfter_q [LinearOrder α] (xs : List α) :
    ∀ k, (∀ u ∈ stackAfter (buildList xs) k, allPopulated u = true) ∨
      stackAfter (buildList xs) k = [BinarySearchTree.new] := by
  intro k
  induction k with
  | zero =>
    cases xs with
    | nil =>
      right
      rw [stackAfter, show buildList ([] : List α) = BinarySearchTree.new from rfl,
        iterStart_new]
    | cons x xs2 =>
      left
      have hp := buildList_allPopulated (x :: xs2) (by simp)
      rw [stackAfter, iterStart_eq]
      exact push_left_loop_populated _ hp [] (by simp)
  | succ k ih =>
    rcases ih with h | h
    · left
      rw [stackAfter]
      exact nextTotal_populated _ h
    · left
      rw [stackAfter, h, nextTotal_new]
      simp

theorem yield_none_stack_nil (s : List (BinarySearchTree α))
    (hq : (∀ u ∈ s, allPopulated u = true) ∨ s = [BinarySearchTree.new])
    (hy : (nextTotal s).1 = none) : (nextTotal s).2 = [] := by
  rcases hq with h | h
  · cases s with
    | nil => rfl
    | cons node s2 =>
      obtain ⟨d, l, r⟩ := node
      have hnode := h _ (List.mem_cons_self _ _)
      obtain ⟨e, he⟩ : ∃ e, d = some e := by
        rcases (allPopulated_node_iff d l r).mp hnode with ⟨hd, _, _⟩
        cases d with
        | none => simp at hd
        | some e => exact ⟨e, rfl⟩
      subst he
      cases r with
      | none => rw [nextTotal_cons_right_none] at hy; simp at hy
      | some rc => rw [nextTotal_cons_right_some] at hy; simp at hy
  · rw [h, nextTotal_new]

theorem stackAfter_nil_mono (t : BinarySearchTree α) (m : Nat) :
    ∀ n, m ≤ n → stackAfter t m = [] → stackAfter t n = [] := by
  intro n
  induction n with
  | zero => intro h h0; exact (Nat.le_zero.mp h) ▸ h0
  | succ n ih =>
    intro h h0
    rcases eq_or_lt_of_le h with he | hl
    · exact he ▸ h0
    · have h2 := ih (Nat.lt_succ_iff.mp hl) h0
      rw [stackAfter, h2]
      rfl

theorem yieldAt_of_stack_nil (t : BinarySearchTree α) (k : Nat)
    (h : stackAfter t k = []) : yieldAt t k = none := by
  rw [yieldAt, h]
  rfl

/-- Once `next` returns `None` on an iterator over a built tree, every
later call also returns `None`. -/
theorem yield_absorb [LinearOrder α] (xs : List α) (k j : Nat) (hkj : k ≤ j)
    (hy : yieldAt (buildList xs) k = none) : yieldAt (buildList xs) j = none := by
  rcases eq_or_lt_of_le hkj with he | hl
  · exact he ▸ hy
  · have hq := stackAfter_q xs k
    have h2 : stackAfter (buildList xs) (k + 1) = [] := by
      rw [stackAfter]
      rw [yieldAt] at hy
      exact yield_none_stack_nil _ hq hy
    have h3 : stackAfter (buildList xs) j = [] :=
      stackAfter_nil_mono _ (k + 1) j hl h2
    exact yieldAt_of_stack_nil _ j h3

/-- Fully driving the iterator of a built tree produces exactly the
in-order flattening of the tree. -/
theorem runFuel_buildList [LinearOrder α] (xs : List α) (fuel : Nat)
    (h : xs.length + 1 ≤ fuel) :
    runFuel fuel (iterStart (buildList xs)) = inorder (buildList xs) := by
  cases xs with
  | nil =>
    obtain ⟨f, rfl⟩ : ∃ f, fuel = f + 1 := ⟨fuel - 1, by omega⟩
    rw [show buildList ([] : List α) = BinarySearchTree.new from rfl, iterStart_new,
      runFuel, nextTotal_new]
    show ([] : List α) = inorder BinarySearchTree.new
    rw [inorder_new]
  | cons x xs2 =>
    have hp := buildList_allPopulated (x :: xs2) (by simp)
    have hsp : ∀ u ∈ iterStart (buildList (x :: xs2)), allPopulated u = true := by
      rw [iterStart_eq]
      exact push_left_loop_populated _ hp [] (by simp)
    have hso : stackOut (iterStart (buildList (x :: xs2))) = inorder (buildList (x :: xs2)) := by
      rw [iterStart_eq, push_left_loop_stackOut]
      simp [stackOut]
    have hlen : (stackOut (iterStart (buildList (x :: xs2)))).length < fuel := by
      rw [hso]
      have hpl := (inorder_buildList (x :: xs2)).length_eq
      simp only [List.length_cons] at hpl h ⊢
      omega
    rw [runFuel_eq_stackOut fuel _ hsp hlen, hso]

end BinarySearchTreeIterator

namespace BinarySearchTree

variable {α : Type}

/-! ### Structure preservation under insertion -/

theorem preservedIn_mk [DecidableEq α] (d : Option α) (l r : Option (BinarySearchTree α))
    (d2 : Option α) (l2 r2 : Option (BinarySearchTree α)) :
    preservedIn ⟨d, l, r⟩ ⟨d2, l2, r2⟩ =
      ((!d.isSome || decide (d2 = d)) && preservedInO l l2 && preservedInO r r2) := by
  cases l <;> cases l2 <;> cases r <;> cases r2 <;> simp [preservedIn, preservedInO]

theorem preservedIn_node_iff [DecidableEq α] (d : Option α) (l r : Option (BinarySearchTree α))
    (d2 : Option α) (l2 r2 : Option (BinarySearchTree α)) :
    preservedIn ⟨d, l, r⟩ ⟨d2, l2, r2⟩ = true ↔
      ((d.isSome = true → d2 = d) ∧ preservedInO l l2 = true ∧ preservedInO r r2 = true) := by
  rw [preservedIn_mk]
  cases d <;> simp [and_assoc]

theorem preservedIn_refl [DecidableEq α] : ∀ t : BinarySearchTree α, preservedIn t t = true := by
  intro t
  induction t using inductionOn with
  | h d l r ihl ihr =>
    refine (preservedIn_node_iff d l r d l r).mpr ⟨fun _ => rfl, ?_, ?_⟩
    · cases l with
      | some u => simpa [preservedInO] using optHolds_some ihl
      | none => rfl
    · cases r with
      | some u => simpa [preservedInO] using optHolds_some ihr
      | none => rfl

theorem preservedInO_refl [DecidableEq α] (c : Option (BinarySearchTree α)) :
    preservedInO c c = true := by
  cases c with
  | some u => simpa [preservedInO] using preservedIn_refl u
  | none => rfl

/-- `insert` never removes, rearranges or modifies existing nodes:
the original tree is preserved inside the inserted-into tree. -/
theorem preservedIn_insert [LinearOrder α] (x : α) :
    ∀ t : BinarySearchTree α, preservedIn t (insert t x) = true := by
  intro t
  induction t using inductionOn with
  | h d l r ihl ihr =>
    cases d with
    | none =>
      rw [insert_data_none]
      refine (preservedIn_node_iff none l r (some x) l r).mpr
        ⟨?_, preservedInO_refl l, preservedInO_refl r⟩
      intro h
      simp at h
    | some e =>
      rw [insert_data_some]
      by_cases hx : x < e
      · rw [if_pos hx]
        refine (preservedIn_node_iff (some e) l r (some e) _ r).mpr
          ⟨fun _ => rfl, ?_, preservedInO_refl r⟩
        cases l with
        | some u => simpa [preservedInO, childInsert] using optHolds_some ihl
        | none => rfl
      · rw [if_neg hx]
        refine (preservedIn_node_iff (some e) l r (some e) l _).mpr
          ⟨fun _ => rfl, preservedInO_refl l, ?_⟩
        cases r with
        | some u => simpa [preservedInO, childInsert] using optHolds_some ihr
        | none => rfl

end BinarySearchTree

/-! ### Claim theorems -/

/-- C1: every tree obtained from a fresh empty tree by any finite sequence
of `insert` calls satisfies the BST ordering property: at each node, all
left-subtree elements are strictly less than the node's element and all
right-subtree elements are greater than or equal to it. -/
theorem claim_C1_bst_invariant {α : Type} [LinearOrder α] (xs : List α) :
    BinarySearchTree.isBST (BinarySearchTree.buildList xs) = true :=
  (BinarySearchTree.buildList_inv xs).1

/-- C2: on a tree built by inserting the elements of `xs`, `search e`
returns `true` exactly when `e` equals some inserted element; in
particular it returns `false` for every value on a tree with no
insertions. -/
theorem claim_C2_search_correct {α : Type} [LinearOrder α] (xs : List α) (e : α) :
    (BinarySearchTree.search (BinarySearchTree.buildList xs) e = true ↔ e ∈ xs) := by
  cases xs with
  | nil =>
    rw [show BinarySearchTree.buildList ([] : List α) = BinarySearchTree.new from rfl,
      BinarySearchTree.search_new]
    simp
  | cons x xs2 =>
    have hp := BinarySearchTree.buildList_allPopulated (x :: xs2) (by simp)
    have hb := (BinarySearchTree.buildList_inv (x :: xs2)).1
    rw [BinarySearchTree.search_spec _ hp hb e]
    exact (BinarySearchTree.inorder_buildList (x :: xs2)).mem_iff

/-- C3: fully driving the iterator of a tree built from `xs` (any fuel
beyond the number of insertions suffices) yields the in-order flattening
of the tree: a non-decreasing sequence, of length exactly `xs.length`,
that is a permutation of the inserted elements (duplicates appear once
per insertion). -/
theorem claim_C3_sorted_traversal {α : Type} [LinearOrder α] (xs : List α) (fuel : Nat)
    (h : xs.length + 1 ≤ fuel) :
    BinarySearchTreeIterator.runFuel fuel
        (BinarySearchTreeIterator.iterStart (BinarySearchTree.buildList xs)) =
      BinarySearchTree.inorder (BinarySearchTree.buildList xs) ∧
    List.Sorted (fun a b => a ≤ b)
      (BinarySearchTreeIterator.runFuel fuel
        (BinarySearchTreeIterator.iterStart (BinarySearchTree.buildList xs))) ∧
    (BinarySearchTreeIterator.runFuel fuel
        (BinarySearchTreeIterator.iterStart (BinarySearchTree.buildList xs))).length =
      xs.length ∧
    (BinarySearchTreeIterator.runFuel fuel
        (BinarySearchTreeIterator.iterStart (BinarySearchTree.buildList xs))).Perm xs := by
  have hrun := BinarySearchTreeIterator.runFuel_buildList xs fuel h
  have hperm := BinarySearchTree.inorder_buildList xs
  have hsorted : List.Sorted (fun a b => a ≤ b)
      (BinarySearchTree.inorder (BinarySearchTree.buildList xs)) := by
    cases xs with
    | nil =>
      rw [show BinarySearchTree.buildList ([] : List α) = BinarySearchTree.new from rfl,
        BinarySearchTree.inorder_new]
      exact List.sorted_nil
    | cons x xs2 =>
      exact BinarySearchTree.inorder_sorted _
        (BinarySearchTree.buildList_allPopulated _ (by simp))
        (BinarySearchTree.buildList_inv _).1
  refine ⟨hrun, ?_, ?_, ?_⟩
  · rw [hrun]; exact hsorted
  · rw [hrun]; exact hperm.length_eq
  · rw [hrun]; exact hperm

/-- Witness for C3 at `xs = [2, 1, 2]`, `fuel = 4`. -/
theorem claim_C3_witness :
    (([2, 1, 2] : List Int).length + 1 ≤ 4) ∧
    (BinarySearchTreeIterator.runFuel 4
        (BinarySearchTreeIterator.iterStart (BinarySearchTree.buildList ([2, 1, 2] : List Int))) =
      BinarySearchTree.inorder (BinarySearchTree.buildList ([2, 1, 2] : List Int)) ∧
    List.Sorted (fun a b => a ≤ b)
      (BinarySearchTreeIterator.runFuel 4
        (BinarySearchTreeIterator.iterStart (BinarySearchTree.buildList ([2, 1, 2] : List Int)))) ∧
    (BinarySearchTreeIterator.runFuel 4
        (BinarySearchTreeIterator.iterStart (BinarySearchTree.buildList ([2, 1, 2] : List Int)))).length =
      ([2, 1, 2] : List Int).length ∧
    (BinarySearchTreeIterator.runFuel 4
        (BinarySearchTreeIterator.iterStart (BinarySearchTree.buildList ([2, 1, 2] : List Int)))).Perm
      ([2, 1, 2] : List Int)) :=
  ⟨by decide, claim_C3_sorted_traversal [2, 1, 2] 4 (by decide)⟩

/-- C4: on a tree built by a non-empty insertion sequence, `min` returns
`some` of the smallest inserted element and `max` returns `some` of the
largest, with respect to the element type's total order. -/
theorem claim_C4_min_max {α : Type} [LinearOrder α] (xs : List α) (h : xs ≠ []) :
    (∃ m, BinarySearchTree.min (BinarySearchTree.buildList xs) = some m ∧
      m ∈ xs ∧ ∀ y ∈ xs, m ≤ y) ∧
    (∃ m, BinarySearchTree.max (BinarySearchTree.buildList xs) = some m ∧
      m ∈ xs ∧ ∀ y ∈ xs, y ≤ m) := by
  have hp := BinarySearchTree.buildList_allPopulated xs h
  have hb := (BinarySearchTree.buildList_inv xs).1
  obtain ⟨m1, h1, h2, h3⟩ := BinarySearchTree.min_spec _ hp hb
  obtain ⟨m2, g1, g2, g3⟩ := BinarySearchTree.max_spec _ hp hb
  refine ⟨⟨m1, h1, (BinarySearchTree.inorder_buildList xs).mem_iff.mp h2, ?_⟩,
    ⟨m2, g1, (BinarySearchTree.inorder_buildList xs).mem_iff.mp g2, ?_⟩⟩
  · intro y hy; exact h3 y ((BinarySearchTree.inorder_buildList xs).mem_iff.mpr hy)
  · intro y hy; exact g3 y ((BinarySearchTree.inorder_buildList xs).mem_iff.mpr hy)

/-- Witness for C4 at `xs = [2, 1, 3]`. -/
theorem claim_C4_witness :
    (([2, 1, 3] : List Int) ≠ []) ∧
    ((∃ m, BinarySearchTree.min (BinarySearchTree.buildList ([2, 1, 3] : List Int)) = some m ∧
      m ∈ ([2, 1, 3] : List Int) ∧ ∀ y ∈ ([2, 1, 3] : List Int), m ≤ y) ∧
    (∃ m, BinarySearchTree.max (BinarySearchTree.buildList ([2, 1, 3] : List Int)) = some m ∧
      m ∈ ([2, 1, 3] : List Int) ∧ ∀ y ∈ ([2, 1, 3] : List Int), y ≤ m)) :=
  ⟨by decide, claim_C4_min_max [2, 1, 3] (by decide)⟩

/-- C5: at a node holding `e`, `insert x` goes into the left child slot
exactly when `x < e` and into the right child slot otherwise (including
`x = e`); duplicates are retained as separate nodes (the element count of
`x` always grows by one), not deduplicated or rejected. -/
theorem claim_C5_duplicates_right {α : Type} [LinearOrder α] (e x : α)
    (l r : Option (BinarySearchTree α)) (t : BinarySearchTree α) :
    (x < e →
      BinarySearchTree.insert ⟨some e, l, r⟩ x =
        ⟨some e, some (BinarySearchTree.childInsert l x), r⟩) ∧
    (e ≤ x →
      BinarySearchTree.insert ⟨some e, l, r⟩ x =
        ⟨some e, l, some (BinarySearchTree.childInsert r x)⟩) ∧
    (BinarySearchTree.inorder (BinarySearchTree.insert t x)).count x =
      (BinarySearchTree.inorder t).count x + 1 := by
  refine ⟨?_, ?_, ?_⟩
  · intro hx; rw [BinarySearchTree.insert_data_some, if_pos hx]
  · intro hx; rw [BinarySearchTree.insert_data_some, if_neg (not_lt.mpr hx)]
  · rw [(BinarySearchTree.inorder_insert x t).count_eq]
    simp

/-- Witness for C5 at `e = 5` with `x = 3` (left) and `x = 5` (right,
the duplicate case). -/
theorem claim_C5_witness :
    BinarySearchTree.insert (⟨some 5, none, none⟩ : BinarySearchTree Int) 3 =
      ⟨some 5, some (BinarySearchTree.childInsert none 3), none⟩ ∧
    BinarySearchTree.insert (⟨some 5, none, none⟩ : BinarySearchTree Int) 5 =
      ⟨some 5, none, some (BinarySearchTree.childInsert none 5)⟩ ∧
    (BinarySearchTree.inorder
        (BinarySearchTree.insert (⟨some 5, none, none⟩ : BinarySearchTree Int) 5)).count 5 =
      (BinarySearchTree.inorder (⟨some 5, none, none⟩ : BinarySearchTree Int)).count 5 + 1 :=
  ⟨(claim_C5_duplicates_right 5 3 none none ⟨some 5, none, none⟩).1 (by decide),
   (claim_C5_duplicates_right 5 5 none none ⟨some 5, none, none⟩).2.1 (by decide),
   (claim_C5_duplicates_right 5 5 none none ⟨some 5, none, none⟩).2.2⟩

/-- C6: in every tree reachable by insertions from a fresh empty tree,
a node without an element has no children; after at least one insertion
every node is populated, so a data-less node can only be the unpopulated
root of a never-inserted tree. -/
theorem claim_C6_empty_node_shape {α : Type} [LinearOrder α] (xs : List α) :
    BinarySearchTree.emptyNoChild (BinarySearchTree.buildList xs) = true ∧
      (xs ≠ [] → BinarySearchTree.allPopulated (BinarySearchTree.buildList xs) = true) := by
  constructor
  · rcases (BinarySearchTree.buildList_inv xs).2 with hnew | hp
    · rw [hnew]; exact BinarySearchTree.emptyNoChild_new
    · exact BinarySearchTree.allPopulated_emptyNoChild _ hp
  · exact fun h => BinarySearchTree.buildList_allPopulated xs h

/-- Witness for C6 at `xs = [1, 2]`. -/
theorem claim_C6_witness :
    BinarySearchTree.emptyNoChild (BinarySearchTree.buildList ([1, 2] : List Int)) = true ∧
    BinarySearchTree.allPopulated (BinarySearchTree.buildList ([1, 2] : List Int)) = true :=
  ⟨(claim_C6_empty_node_shape [1, 2]).1, (claim_C6_empty_node_shape [1, 2]).2 (by decide)⟩

/-- C7: on a freshly constructed tree, `search` returns `false` for every
value, `min` and `max` return `none`, constructing the iterator does not
panic (it returns the singleton stack), and the first `next` call signals
exhaustion (`None`) without panicking. -/
theorem claim_C7_empty_tree_queries {α : Type} [LinearOrder α] (e : α) :
    BinarySearchTree.search (BinarySearchTree.new : BinarySearchTree α) e = false ∧
    BinarySearchTree.min (BinarySearchTree.new : BinarySearchTree α) = none ∧
    BinarySearchTree.max (BinarySearchTree.new : BinarySearchTree α) = none ∧
    BinarySearchTreeIterator.new (BinarySearchTree.new : BinarySearchTree α) =
      some [BinarySearchTree.new] ∧
    BinarySearchTreeIterator.next [(BinarySearchTree.new : BinarySearchTree α)] =
      some (none, []) := by
  refine ⟨BinarySearchTree.search_new e, BinarySearchTree.min_new,
    BinarySearchTree.max_new, ?_, ?_⟩
  · rw [BinarySearchTreeIterator.new_eq]
    simp [BinarySearchTree.new, BinarySearchTreeIterator.push_left_loop]
  · simp [BinarySearchTree.new, BinarySearchTreeIterator.next_cons_right_none]

/-- C8: the read-only operations (`search`, `min`, `max`, `iter`) leave
the tree unchanged when run as state transformers, and any sequence of
them returns exactly the results of evaluating each query on the original
tree, so repeated queries yield identical results. -/
theorem claim_C8_queries_pure {α : Type} [LinearOrder α] (t : BinarySearchTree α)
    (qs : List (BinarySearchTree.Query α)) :
    (BinarySearchTree.runQueries t qs).2 = t ∧
      (BinarySearchTree.runQueries t qs).1 =
        qs.map (fun q => (BinarySearchTree.runQuery t q).1) := by
  have hsnd : ∀ q : BinarySearchTree.Query α, (BinarySearchTree.runQuery t q).2 = t := by
    intro q; cases q <;> rfl
  induction qs with
  | nil => exact ⟨rfl, rfl⟩
  | cons q qs ih =>
    simp only [BinarySearchTree.runQueries, List.map_cons]
    rw [hsnd q]
    exact ⟨ih.1, by rw [ih.2]⟩

/-- C9 counterexample: the very first insertion into a freshly
constructed empty root fills the existing root's data slot in place — no
new node structure is created, so the tree does not grow by one node and
nothing is allocated on that call. -/
theorem claim_C9_counterexample :
    BinarySearchTree.structCount
        (BinarySearchTree.insert (BinarySearchTree.new : BinarySearchTree Int) 0) = 1 ∧
    BinarySearchTree.structCount (BinarySearchTree.new : BinarySearchTree Int) = 1 ∧
    BinarySearchTree.structCount
        (BinarySearchTree.insert (BinarySearchTree.new : BinarySearchTree Int) 0) ≠
      BinarySearchTree.structCount (BinarySearchTree.new : BinarySearchTree Int) + 1 := by
  have h1 : BinarySearchTree.structCount
      (BinarySearchTree.insert (BinarySearchTree.new : BinarySearchTree Int) 0) = 1 := by
    rw [BinarySearchTree.insert_new]
    simp [BinarySearchTree.structCount_mk, BinarySearchTree.structCountO]
  have h2 : BinarySearchTree.structCount (BinarySearchTree.new : BinarySearchTree Int) = 1 := by
    simp [BinarySearchTree.new, BinarySearchTree.structCount_mk, BinarySearchTree.structCountO]
  exact ⟨h1, h2, by rw [h1, h2]; decide⟩

/-- C9 (amended): every insertion always succeeds, adds exactly one
element occurrence, and never removes, rebalances, or modifies any
existing element — the original tree is preserved node-for-node inside
the result (`preservedIn`): every pre-existing node keeps its exact
element and position and no child is ever detached or rearranged.  An
insertion into a tree whose nodes are all populated allocates exactly one
new node structure, while the very first insertion into a fresh empty
root populates the existing root in place and allocates none. -/
theorem claim_C9_insert_growth {α : Type} [LinearOrder α] (t : BinarySearchTree α) (x : α) :
    (BinarySearchTree.inorder (BinarySearchTree.insert t x)).Perm
      (x :: BinarySearchTree.inorder t) ∧
    BinarySearchTree.preservedIn t (BinarySearchTree.insert t x) = true ∧
    (BinarySearchTree.allPopulated t = true →
      BinarySearchTree.structCount (BinarySearchTree.insert t x) =
        BinarySearchTree.structCount t + 1) ∧
    (t = BinarySearchTree.new →
      BinarySearchTree.structCount (BinarySearchTree.insert t x) =
        BinarySearchTree.structCount t) := by
  refine ⟨BinarySearchTree.inorder_insert x t, BinarySearchTree.preservedIn_insert x t,
    fun hp => BinarySearchTree.structCount_insert x t hp, fun ht => ?_⟩
  subst ht
  exact BinarySearchTree.structCount_insert_new x

/-- Witness for C9 (amended) at a populated one-node tree and at the
fresh empty root. -/
theorem claim_C9_witness :
    (BinarySearchTree.allPopulated (⟨some 1, none, none⟩ : BinarySearchTree Int) = true ∧
      BinarySearchTree.structCount
          (BinarySearchTree.insert (⟨some 1, none, none⟩ : BinarySearchTree Int) 2) =
        BinarySearchTree.structCount (⟨some 1, none, none⟩ : BinarySearchTree Int) + 1) ∧
    BinarySearchTree.preservedIn (⟨some 1, none, none⟩ : BinarySearchTree Int)
        (BinarySearchTree.insert (⟨some 1, none, none⟩ : BinarySearchTree Int) 2) = true ∧
    BinarySearchTree.structCount
        (BinarySearchTree.insert (BinarySearchTree.new : BinarySearchTree Int) 7) =
      BinarySearchTree.structCount (BinarySearchTree.new : BinarySearchTree Int) :=
  ⟨⟨by decide, (claim_C9_insert_growth ⟨some 1, none, none⟩ 2).2.2.1 (by decide)⟩,
   (claim_C9_insert_growth ⟨some 1, none, none⟩ 2).2.1,
   (claim_C9_insert_growth BinarySearchTree.new 7).2.2.2 rfl⟩

/-- Evaluation of the second `next` call on the iterator of the tree
built from `[1]`: the first call yields the single element, the second
returns `None`. -/
theorem yieldAt_one_element_eval :
    BinarySearchTreeIterator.yieldAt (BinarySearchTree.buildList ([1] : List Int)) 1 = none := by
  have h1 : BinarySearchTree.buildList ([1] : List Int) = ⟨some 1, none, none⟩ := by
    rw [BinarySearchTree.buildList, List.foldl_cons, List.foldl_nil, BinarySearchTree.insert_new]
  rw [BinarySearchTreeIterator.yieldAt, BinarySearchTreeIterator.stackAfter,
    BinarySearchTreeIterator.stackAfter, h1, BinarySearchTreeIterator.iterStart_eq]
  simp [BinarySearchTreeIterator.push_left_loop,
    BinarySearchTreeIterator.nextTotal_cons_right_none, BinarySearchTreeIterator.nextTotal_nil]

/-- C10: the iterator's internal partial operations never fail —
constructing an iterator and advancing it never reach a panicking
`unwrap` — and once `next` returns `None` on a built tree's iterator,
every later call returns `None` as well. -/
theorem claim_C10_iterator_safety {α : Type} [LinearOrder α] (xs : List α)
    (s : List (BinarySearchTree α)) (t : BinarySearchTree α) (k j : Nat) :
    BinarySearchTreeIterator.new t ≠ none ∧
    BinarySearchTreeIterator.next s ≠ none ∧
    (k ≤ j → BinarySearchTreeIterator.yieldAt (BinarySearchTree.buildList xs) k = none →
      BinarySearchTreeIterator.yieldAt (BinarySearchTree.buildList xs) j = none) :=
  ⟨BinarySearchTreeIterator.new_no_panic t, BinarySearchTreeIterator.next_no_panic s,
   fun hkj hy => BinarySearchTreeIterator.yield_absorb xs k j hkj hy⟩

/-- Witness for C10 at `xs = [1]`, `k = 1`, `j = 3`. -/
theorem claim_C10_witness :
    BinarySearchTreeIterator.new (BinarySearchTree.new : BinarySearchTree Int) ≠ none ∧
    BinarySearchTreeIterator.next ([] : List (BinarySearchTree Int)) ≠ none ∧
    BinarySearchTreeIterator.yieldAt (BinarySearchTree.buildList ([1] : List Int)) 3 = none :=
  ⟨(claim_C10_iterator_safety ([1] : List Int) [] BinarySearchTree.new 1 3).1,
   (claim_C10_iterator_safety ([1] : List Int) [] BinarySearchTree.new 1 3).2.1,
   (claim_C10_iterator_safety ([1] : List Int) [] BinarySearchTree.new 1 3).2.2
     (by decide) yieldAt_one_element_eval⟩
